import Mathlib

/-
Verification of the vrc-get project-resolution engine against its design
specification.

The development shallowly embeds the code of
`vrc-get-vpm/src/unity_project.rs` and `vrc-get-gui/src/config.rs`:
pure data is translated to Lean structures, stateful operations become
explicit state passing, fallible operations return `Option` or `Except`,
and the filesystem, the package index and the JSON parsers appear as
explicit functional parameters (they are external collaborators in the
design).  Components of the repository that are referenced but whose code
is not part of the excerpt (the manifest model `VpmManifest`, the
package-add request builder, the version/range model) are modelled from
the specification; each such definition carries a doc comment saying so.
-/

/-! ## Version and range model -/

/-- A semantic version: numeric triple plus a pre-release qualifier
(empty string = no qualifier).  Translated from the `Version` type used by
`unity_project.rs` (`dep.version()`, `x.version().pre.is_empty()`). -/
structure Version where
  major : Nat
  minor : Nat
  patch : Nat
  pre : String
deriving DecidableEq

/-- Lexicographic strict order on the numeric triple. -/
def Version.coreLt (a b : Version) : Bool :=
  Nat.blt a.major b.major ||
    (a.major == b.major && (Nat.blt a.minor b.minor ||
      (a.minor == b.minor && Nat.blt a.patch b.patch)))

def Version.coreLe (a b : Version) : Bool :=
  Version.coreLt a b ||
    (a.major == b.major && (a.minor == b.minor && a.patch == b.patch))

/-- Modelled from the spec: the version module (not in the excerpt) provides
"range expressions with a matching predicate"; caret-style requirements are
half-open intervals on the numeric triple, so the model represents a range
as such an interval. -/
structure VersionRange where
  lo : Version
  hi : Version
deriving DecidableEq

/-- Modelled from the spec: the matching predicate of a version range. -/
def VersionRange.matchesVersion (r : VersionRange) (v : Version) : Bool :=
  r.lo.coreLe v && v.coreLt r.hi

/-- An editor version (`UnityVersion`); only its output type matters to the
engine, per the spec scope. -/
structure UnityVersion where
  major : Nat
  minor : Nat
deriving DecidableEq

/-! ## Package descriptors, manifest, project state -/

/-- A parsed package descriptor (`PackageJson`): name, version and declared
dependency ranges, in declaration order. -/
structure PackageJson where
  name : String
  version : Version
  vpmDependencies : List (String × VersionRange)
deriving DecidableEq

/-- A package reference returned by the package index (`PackageInfo`). -/
structure PackageInfo where
  name : String
  version : Version
  vpmDependencies : List (String × VersionRange)
deriving DecidableEq

/-- One locked row of the manifest (`LockedDependencyInfo`). -/
structure LockedDependencyInfo where
  name : String
  version : Version
  dependencies : List (String × VersionRange)
deriving DecidableEq

/-- Modelled from the spec: the manifest model (`vpm_manifest.rs` is not in
the excerpt) is "a set of locked (name, version, dependency-ranges) triples"
with stable insertion order; the model keeps the rows as a list. -/
structure VpmManifest where
  locked : List LockedDependencyInfo
deriving DecidableEq

/-- Modelled from the spec: `getLocked(name)` is an exact lookup. -/
def VpmManifest.getLocked (m : VpmManifest) (n : String) : Option LockedDependencyInfo :=
  m.locked.find? (fun l => l.name == n)

/-- Modelled from the spec: `allLocked()` iterates rows in insertion order. -/
def VpmManifest.allLocked (m : VpmManifest) : List LockedDependencyInfo :=
  m.locked

def VpmManifest.lockedNames (m : VpmManifest) : List String :=
  m.locked.map (fun l => l.name)

/-- Modelled from the spec: `setLocked` is insert-or-replace; replacing
keeps the row position, inserting appends. -/
def VpmManifest.setLocked (m : VpmManifest) (n : String) (v : Version)
    (deps : List (String × VersionRange)) : VpmManifest :=
  if (m.getLocked n).isSome then
    { locked := m.locked.map (fun l => if l.name == n then ⟨n, v, deps⟩ else l) }
  else
    { locked := m.locked ++ [⟨n, v, deps⟩] }

/-- The engine's working set (`UnityProject`).  Paths are component lists
(root first). -/
structure UnityProject where
  projectDir : List String
  manifest : VpmManifest
  unityVersion : Option UnityVersion
  unlockedPackages : List (String × Option PackageJson)
  installedPackages : List (String × PackageJson)
deriving DecidableEq

/-! ## Project load: directory classification (find_unity_project) -/

/-- The classification test of the load loop (`find_unity_project`,
lines 62-67): a directory entry is installed exactly when its descriptor
parsed, the declared name equals the directory name, and that name is
locked. -/
def isInstalledEntry (manifest : VpmManifest) (entry : String × Option PackageJson) : Bool :=
  match entry.2 with
  | some parsed => parsed.name == entry.1 && (manifest.getLocked parsed.name).isSome
  | none => false

/-- The load loop of `find_unity_project` (lines 56-73): each directory
entry goes to `installed_packages` (keyed by directory name) or is pushed
onto `unlocked_packages`. -/
def classifyPackages (manifest : VpmManifest) :
    List (String × Option PackageJson) →
    List (String × PackageJson) × List (String × Option PackageJson)
  | [] => ([], [])
  | entry :: rest =>
    let tail := classifyPackages manifest rest
    match entry.2 with
    | some parsed =>
      if isInstalledEntry manifest entry then ((entry.1, parsed) :: tail.1, tail.2)
      else (tail.1, entry :: tail.2)
    | none => (tail.1, entry :: tail.2)

/-- The selector describing which entries land in `installed_packages`. -/
def installedSelector (manifest : VpmManifest) (entry : String × Option PackageJson) :
    Option (String × PackageJson) :=
  match entry.2 with
  | some parsed =>
    if parsed.name == entry.1 && (manifest.getLocked parsed.name).isSome then
      some (entry.1, parsed)
    else none
  | none => none

/-! ## Editor version reading (try_read_unity_version) -/

/-- Outcome of opening and reading `ProjectVersion.txt`. -/
inductive ProjectVersionFile where
  | notFound
  | readError
  | content (text : List Char)
deriving DecidableEq

def isPrefixL : List Char → List Char → Bool
  | [], _ => true
  | _ :: _, [] => false
  | p :: ps, c :: cs => p == c && isPrefixL ps cs

/-- `str::split_once` on character lists: split at the first occurrence of
the pattern. -/
def splitOnceChars (pat : List Char) : List Char → Option (List Char × List Char)
  | [] => if isPrefixL pat [] then some ([], ([] : List Char).drop pat.length) else none
  | c :: rest =>
    if isPrefixL pat (c :: rest) then some ([], (c :: rest).drop pat.length)
    else (splitOnceChars pat rest).map (fun pr => (c :: pr.1, pr.2))

theorem splitOnceChars_nil (pat : List Char) :
    splitOnceChars pat [] =
      if isPrefixL pat [] then some (([] : List Char), ([] : List Char).drop pat.length)
      else none := by
  rw [splitOnceChars]

theorem splitOnceChars_cons (pat : List Char) (c : Char) (rest : List Char) :
    splitOnceChars pat (c :: rest) =
      if isPrefixL pat (c :: rest) then some (([] : List Char), (c :: rest).drop pat.length)
      else (splitOnceChars pat rest).map (fun pr => (c :: pr.1, pr.2)) := by
  rw [splitOnceChars]

def markerChars : List Char := "m_EditorVersion:".toList

/-- The version token ends at the first carriage return or line feed
(or at end of content), per lines 173-176. -/
def takeUntilLineBreak (l : List Char) : List Char :=
  l.takeWhile (fun c => !(c == '\r' || c == '\n'))

/-- `str::trim` on character lists (whitespace on both ends). -/
def trimChars (l : List Char) : List Char :=
  ((l.dropWhile Char.isWhitespace).reverse.dropWhile Char.isWhitespace).reverse

/-- `try_read_unity_version` (lines 144-185): every failure mode yields
`none`; on success the token after the marker, cut at the first line break
and trimmed, is handed to the version parser (a parameter: version-string
parsing is outside the engine per the spec). -/
def tryReadUnityVersion (parseUnity : List Char → Option UnityVersion)
    (file : ProjectVersionFile) : Option UnityVersion :=
  match file with
  | .notFound => none
  | .readError => none
  | .content text =>
    match splitOnceChars markerChars text with
    | none => none
    | some (_, versionInfo) =>
      match parseUnity (trimChars (takeUntilLineBreak versionInfo)) with
      | none => none
      | some v => some v

/-- `find_unity_project` (lines 43-84) after discovery: manifest loading and
directory listing results are inputs (their I/O errors propagate); the
version file never contributes an error. -/
def findUnityProject (dir : List String)
    (manifestLoad : Except Unit VpmManifest)
    (dirListing : Except Unit (List (String × Option PackageJson)))
    (parseUnity : List Char → Option UnityVersion)
    (versionFile : ProjectVersionFile) : Except Unit UnityProject :=
  match manifestLoad with
  | .error e => .error e
  | .ok manifest =>
    match dirListing with
    | .error e => .error e
    | .ok entries =>
      let pair := classifyPackages manifest entries
      .ok { projectDir := dir
            manifest := manifest
            unityVersion := tryReadUnityVersion parseUnity versionFile
            unlockedPackages := pair.2
            installedPackages := pair.1 }

/-! ## Project discovery (find_unity_project_path) -/

def packagesDirName : String := "Packages"
def vpmManifestFileName : String := "vpm-manifest.json"
def legacyManifestFileName : String := "manifest.json"

/-- One candidate directory contains a project marker when either lock file
exists under its `Packages` folder (checked in this order by the loop). -/
def containsProjectMarker (fs : List String → Bool) (dir : List String) : Bool :=
  fs (dir ++ [packagesDirName, vpmManifestFileName]) ||
    fs (dir ++ [packagesDirName, legacyManifestFileName])

/-- The search loop of `find_unity_project_path` (lines 101-142).  The
candidate path is a component list; `[]` is the filesystem root, popping at
the root fails and yields NotFound (`none`).  The fuel counts loop
iterations; `length + 1` iterations visit every ancestor including the
root. -/
def findUnityProjectPathGo (fs : List String → Bool) : List String → Nat → Option (List String)
  | _, 0 => none
  | candidate, fuel + 1 =>
    if fs (candidate ++ [packagesDirName, vpmManifestFileName]) then some candidate
    else if fs (candidate ++ [packagesDirName, legacyManifestFileName]) then some candidate
    else if candidate.isEmpty then none
    else findUnityProjectPathGo fs candidate.dropLast fuel

/-- `find_unity_project_path`: search from the working directory upward. -/
def findUnityProjectPath (fs : List String → Bool) (cwd : List String) : Option (List String) :=
  findUnityProjectPathGo fs cwd (cwd.length + 1)

/-- Auxiliary recursion for `ancestorDirs`; the fuel equals the length of
the path, so it never runs out. -/
def ancestorDirsGo : Nat → List String → List (List String)
  | 0, _ => [[]]
  | _ + 1, [] => [[]]
  | fuel + 1, a :: as => (a :: as) :: ancestorDirsGo fuel (a :: as).dropLast

/-- The working directory and each of its ancestors, nearest first, ending
with the root. -/
def ancestorDirs (l : List String) : List (List String) :=
  ancestorDirsGo l.length l

theorem ancestorDirs_eq (l : List String) :
    ancestorDirs l = l :: (if l.isEmpty then [] else ancestorDirs l.dropLast) := by
  cases l with
  | nil => simp [ancestorDirs, ancestorDirsGo]
  | cons a as =>
    have hlen : (a :: as).dropLast.length = as.length := by
      simp [List.length_dropLast]
    simp only [ancestorDirs, List.length_cons, ancestorDirsGo, List.isEmpty_cons,
      if_neg Bool.false_ne_true, hlen]

/-! ## GUI configuration (vrc-get-gui/src/config.rs) -/

structure WindowSize where
  width : Nat
  height : Nat
deriving DecidableEq

/-- `impl Default for WindowSize` (config.rs lines 44-51). -/
def WindowSize.defaultValue : WindowSize :=
  { width := 1000, height := 800 }

structure GuiConfig where
  guiHiddenRepositories : List String
  hideLocalUserPackages : Bool
  windowSize : WindowSize
  language : String
  backupFormat : String
  projectSorting : String
deriving DecidableEq

/-- `language_default()` (config.rs line 26). -/
def languageDefault : String := "en"

/-- `backup_default()` (config.rs line 30). -/
def backupDefault : String := "default"

/-- `project_sorting_default()` (config.rs line 34). -/
def projectSortingDefault : String := "lastModified"

/-- `GuiConfig::default()`: the derived `Default` takes every field's own
default, so the three string fields are empty strings (the serde
`default = "..."` attributes apply only during deserialization of a JSON
object missing those fields, not to this value). -/
def GuiConfig.defaultValue : GuiConfig :=
  { guiHiddenRepositories := []
    hideLocalUserPackages := false
    windowSize := WindowSize.defaultValue
    language := ""
    backupFormat := ""
    projectSorting := "" }

/-- The value serde produces for the empty JSON object: every field falls
back to its declared field default (config.rs lines 9-36). -/
def GuiConfig.deserializedEmptyObject : GuiConfig :=
  { guiHiddenRepositories := []
    hideLocalUserPackages := false
    windowSize := WindowSize.defaultValue
    language := languageDefault
    backupFormat := backupDefault
    projectSorting := projectSortingDefault }

/-- Outcome of `io.open(&path)` followed by `read_to_end`. -/
inductive OpenFileResult where
  | notFound
  | otherIoError
  | opened (content : List Nat)
deriving DecidableEq

inductive GuiLoadError where
  | ioError
  | jsonError
deriving DecidableEq

structure GuiConfigHolder where
  cachedValue : Option (GuiConfig × List String)
deriving DecidableEq

/-- `GuiConfigHolder::load` (config.rs lines 91-111): a cached value is
returned untouched; otherwise the file is opened at the resolved path,
NotFound falls back to `GuiConfig::default()`, any other open/read error
propagates, malformed JSON fails, and a successfully obtained value is
cached together with the path. -/
def GuiConfigHolder.load (holder : GuiConfigHolder) (resolvePath : List String)
    (openFile : List String → OpenFileResult)
    (parseJson : List Nat → Option GuiConfig) :
    GuiConfigHolder × Except GuiLoadError GuiConfig :=
  match holder.cachedValue with
  | some pr => (holder, .ok pr.1)
  | none =>
    match openFile resolvePath with
    | .opened content =>
      match parseJson content with
      | some value =>
        ({ cachedValue := some (value, resolvePath) }, .ok value)
      | none => (holder, .error .jsonError)
    | .notFound =>
      ({ cachedValue := some (GuiConfig.defaultValue, resolvePath) },
       .ok GuiConfig.defaultValue)
    | .otherIoError => (holder, .error .ioError)

/-! ## Helper lemmas -/

theorem isPrefixL_append (pat rest : List Char) :
    isPrefixL pat (pat ++ rest) = true := by
  induction pat with
  | nil => rfl
  | cons p ps ih => simp [isPrefixL, ih]

theorem isPrefixL_drop (pat s : List Char) (h : isPrefixL pat s = true) :
    s = pat ++ s.drop pat.length := by
  induction pat generalizing s with
  | nil => simp
  | cons p ps ih =>
    cases s with
    | nil => simp [isPrefixL] at h
    | cons c cs =>
      simp [isPrefixL] at h
      obtain ⟨h1, h2⟩ := h
      have := ih cs h2
      simp [h1, List.drop]
      exact this

theorem splitOnceChars_sound (pat s pre post : List Char)
    (h : splitOnceChars pat s = some (pre, post)) :
    s = pre ++ pat ++ post := by
  induction s generalizing pre post with
  | nil =>
    rw [splitOnceChars_nil] at h
    by_cases hp : isPrefixL pat [] = true
    · rw [if_pos hp] at h
      simp only [Option.some.injEq, Prod.mk.injEq] at h
      obtain ⟨h1, h2⟩ := h
      subst h1; subst h2
      have hd := isPrefixL_drop pat [] hp
      simpa using hd
    · rw [if_neg hp] at h
      exact absurd h (by simp)
  | cons c cs ih =>
    rw [splitOnceChars_cons] at h
    by_cases hp : isPrefixL pat (c :: cs) = true
    · rw [if_pos hp] at h
      simp only [Option.some.injEq, Prod.mk.injEq] at h
      obtain ⟨h1, h2⟩ := h
      subst h1; subst h2
      have hd := isPrefixL_drop pat (c :: cs) hp
      simpa using hd
    · rw [if_neg hp] at h
      cases hmap : splitOnceChars pat cs with
      | none => rw [hmap] at h; simp at h
      | some pr =>
        rw [hmap] at h
        rcases pr with ⟨a, b⟩
        simp only [Option.map_some', Option.some.injEq, Prod.mk.injEq] at h
        obtain ⟨h1, h2⟩ := h
        subst h1; subst h2
        have hcs := ih a b hmap
        simp [hcs]

/-! ## C7: classification invariant -/

/-- C7: after project load every directory entry under the package folder is
classified into exactly one of `installed_packages` and
`unlocked_packages`: the installed list is the entries whose descriptor
parsed with a name equal to the directory name and locked in the manifest,
the unlocked list is exactly the remaining entries, the two sizes add up to
the number of entries, and every installed key is a locked name. -/
theorem classify_partition (manifest : VpmManifest)
    (entries : List (String × Option PackageJson)) :
    (classifyPackages manifest entries).1 = entries.filterMap (installedSelector manifest) ∧
    (classifyPackages manifest entries).2
      = entries.filter (fun e => !(isInstalledEntry manifest e)) ∧
    entries.length
      = (classifyPackages manifest entries).1.length
        + (classifyPackages manifest entries).2.length ∧
    (∀ kp ∈ (classifyPackages manifest entries).1,
      (manifest.getLocked kp.1).isSome = true) := by
  induction entries with
  | nil => simp [classifyPackages]
  | cons entry rest ih =>
    obtain ⟨ih1, ih2, ih3, ih4⟩ := ih
    rcases entry with ⟨dirName, parsedOpt⟩
    cases parsedOpt with
    | none =>
      refine ⟨?_, ?_, ?_, ?_⟩
      · simpa [classifyPackages, installedSelector] using ih1
      · simpa [classifyPackages, installedSelector, isInstalledEntry] using ih2
      · simp [classifyPackages]
        omega
      · intro kp hkp
        simp only [classifyPackages] at hkp
        exact ih4 kp hkp
    | some parsed =>
      by_cases hinst : isInstalledEntry manifest (dirName, some parsed) = true
      · have hsel : installedSelector manifest (dirName, some parsed)
            = some (dirName, parsed) := by
          simp only [isInstalledEntry] at hinst
          simp [installedSelector, hinst]
        refine ⟨?_, ?_, ?_, ?_⟩
        · simp [classifyPackages, hinst, hsel, ih1]
        · simp [classifyPackages, hinst, hsel, ih2]
        · simp [classifyPackages, hinst]
          omega
        · intro kp hkp
          simp only [classifyPackages, hinst, if_pos] at hkp
          simp at hkp
          rcases hkp with hkp | hkp
          · subst hkp
            simp only [isInstalledEntry] at hinst
            have h2 := (Bool.and_eq_true _ _).mp hinst
            have hname : parsed.name = dirName := by
              have := h2.1
              simpa using this
            simpa [hname] using h2.2
          · exact ih4 kp hkp
      · have hsel : installedSelector manifest (dirName, some parsed) = none := by
          simp only [isInstalledEntry] at hinst
          simp [installedSelector, hinst]
        refine ⟨?_, ?_, ?_, ?_⟩
        · simp [classifyPackages, hinst, hsel, ih1]
        · simp [classifyPackages, hinst, hsel, ih2]
        · simp [classifyPackages, hinst]
          omega
        · intro kp hkp
          simp only [classifyPackages, hinst] at hkp
          simp at hkp
          exact ih4 kp hkp

def pkgAlpha : PackageJson :=
  { name := "alpha", version := { major := 1, minor := 0, patch := 0, pre := "" },
    vpmDependencies := [] }

def lockAlpha : LockedDependencyInfo :=
  { name := "alpha", version := { major := 1, minor := 0, patch := 0, pre := "" },
    dependencies := [] }

def manifestAlpha : VpmManifest := { locked := [lockAlpha] }

def entriesAlpha : List (String × Option PackageJson) :=
  [("alpha", some pkgAlpha), ("beta", none)]

theorem classify_partition_witness :
    (manifestAlpha.getLocked ("alpha")).isSome = true :=
  (classify_partition manifestAlpha entriesAlpha).2.2.2
    ("alpha", pkgAlpha) (by decide)

/-! ## C8: project discovery searches the ancestor chain -/

theorem findUnityProjectPathGo_spec (fs : List String → Bool) :
    ∀ (fuel : Nat) (candidate : List String), candidate.length < fuel →
      findUnityProjectPathGo fs candidate fuel
        = (ancestorDirs candidate).find? (fun d => containsProjectMarker fs d) := by
  intro fuel
  induction fuel with
  | zero => intro candidate h; omega
  | succ n ih =>
    intro candidate hlen
    rw [findUnityProjectPathGo, ancestorDirs_eq, List.find?_cons]
    by_cases h1 : fs (candidate ++ [packagesDirName, vpmManifestFileName]) = true
    · have hm : containsProjectMarker fs candidate = true := by
        simp [containsProjectMarker, h1]
      simp [h1, hm]
    · by_cases h2 : fs (candidate ++ [packagesDirName, legacyManifestFileName]) = true
      · have hm : containsProjectMarker fs candidate = true := by
          simp [containsProjectMarker, h1, h2]
        simp [h1, h2, hm]
      · have hm : containsProjectMarker fs candidate = false := by
          simp [containsProjectMarker, h1, h2]
        by_cases hemp : candidate.isEmpty = true
        · simp [h1, h2, hm, hemp]
        · have hne : candidate.length ≠ 0 := by
            simpa [List.isEmpty_iff_length_eq_zero] using hemp
          have hlt : candidate.dropLast.length < n := by
            simp only [List.length_dropLast]
            omega
          simp [h1, h2, hm, hemp, ih candidate.dropLast hlt]

/-- C8: with no starting directory supplied, discovery inspects the working
directory and then each ancestor in turn, returning the first one whose
`Packages` folder contains `vpm-manifest.json` or `manifest.json`, and
reports NotFound (`none`) exactly when no ancestor up to the root contains
either. -/
theorem find_project_path_spec (fs : List String → Bool) (cwd : List String) :
    findUnityProjectPath fs cwd
      = (ancestorDirs cwd).find? (fun d => containsProjectMarker fs d) ∧
    (findUnityProjectPath fs cwd = none ↔
      ∀ d ∈ ancestorDirs cwd, containsProjectMarker fs d = false) := by
  have h := findUnityProjectPathGo_spec fs (cwd.length + 1) cwd (by omega)
  refine ⟨h, ?_⟩
  rw [findUnityProjectPath, h]
  constructor
  · intro hnone d hd
    have := List.find?_eq_none.mp hnone d hd
    simpa using this
  · intro hall
    exact List.find?_eq_none.mpr (fun d hd => by simp [hall d hd])

def fsEmptyW : List String → Bool := fun _ => false

theorem find_project_path_spec_witness :
    findUnityProjectPath fsEmptyW (["home", "user"])
      = (ancestorDirs (["home", "user"])).find? (fun d => containsProjectMarker fsEmptyW d) ∧
    findUnityProjectPath fsEmptyW (["home", "user"]) = none :=
  ⟨(find_project_path_spec fsEmptyW (["home", "user"])).1,
   (find_project_path_spec fsEmptyW (["home", "user"])).2.mpr (by decide)⟩

/-! ## C9: editor-version reading never fails project load -/

/-- C9: reading the editor-version marker never fails project load: when the
manifest and the directory listing are available, `find_unity_project`
returns a project whatever the version-file outcome, with the editor
version given by `try_read_unity_version`; that reader yields `none` for a
missing file, a read error, or content without the marker, and when the
marker is present the token after the first marker occurrence, cut at the
first carriage return or line feed and trimmed, is handed to the version
parser. -/
theorem unity_version_resilient (dir : List String) (manifest : VpmManifest)
    (entries : List (String × Option PackageJson))
    (parseUnity : List Char → Option UnityVersion) (file : ProjectVersionFile) :
    (∃ proj, findUnityProject dir (.ok manifest) (.ok entries) parseUnity file = .ok proj ∧
      proj.unityVersion = tryReadUnityVersion parseUnity file) ∧
    tryReadUnityVersion parseUnity .notFound = none ∧
    tryReadUnityVersion parseUnity .readError = none ∧
    (∀ text, splitOnceChars markerChars text = none →
      tryReadUnityVersion parseUnity (.content text) = none) ∧
    (∀ text pre post, splitOnceChars markerChars text = some (pre, post) →
      text = pre ++ markerChars ++ post ∧
      tryReadUnityVersion parseUnity (.content text)
        = parseUnity (trimChars (takeUntilLineBreak post))) := by
  refine ⟨⟨_, rfl, rfl⟩, rfl, rfl, ?_, ?_⟩
  · intro text h
    simp [tryReadUnityVersion, h]
  · intro text pre post h
    refine ⟨splitOnceChars_sound _ _ _ _ h, ?_⟩
    simp only [tryReadUnityVersion, h]
    cases parseUnity (trimChars (takeUntilLineBreak post)) <;> rfl

def versionTailW : List Char := " 2019.4\n".toList

def versionFileTextW : List Char := markerChars ++ versionTailW

def parseUnityW : List Char → Option UnityVersion :=
  fun l => if l = ("2019.4".toList) then some { major := 2019, minor := 4 } else none

theorem unity_version_resilient_witness :
    versionFileTextW = ([] : List Char) ++ markerChars ++ versionTailW ∧
    tryReadUnityVersion parseUnityW (.content versionFileTextW)
      = parseUnityW (trimChars (takeUntilLineBreak versionTailW)) :=
  (unity_version_resilient [] { locked := [] } [] parseUnityW
      (.content versionFileTextW)).2.2.2.2 versionFileTextW [] versionTailW (by decide)

/-! ## C10: GUI config load on a missing file -/

def guiPathW : List String := ["vrc-get", "gui-config.json"]

def openNotFoundW : List String → OpenFileResult := fun _ => .notFound

def parseJsonNoneW : List Nat → Option GuiConfig := fun _ => none

/-- C10 counterexample: with the config file absent, `load` returns the
derived `GuiConfig::default()` whose `language`, `backup_format` and
`project_sorting` are empty strings, not the serde field defaults
"en" / "default" / "lastModified" the claim states. -/
theorem gui_load_missing_counterexample :
    (GuiConfigHolder.mk none).load guiPathW openNotFoundW parseJsonNoneW
      = ({ cachedValue := some (GuiConfig.defaultValue, guiPathW) },
         .ok GuiConfig.defaultValue) ∧
    GuiConfig.defaultValue.language = "" ∧
    GuiConfig.defaultValue.backupFormat = "" ∧
    GuiConfig.defaultValue.projectSorting = "" ∧
    languageDefault = "en" ∧
    backupDefault = "default" ∧
    projectSortingDefault = "lastModified" ∧
    GuiConfig.defaultValue ≠ GuiConfig.deserializedEmptyObject :=
  ⟨rfl, rfl, rfl, rfl, rfl, rfl, rfl, by decide⟩

/-- C10 (amended): on a missing config file `load` returns the derived
default configuration (empty hidden-repositories, `hide_local_user_packages`
false, window size 1000 by 800, and empty strings for language, backup
format and project sorting) and caches it; any other open/read I/O error is
propagated; malformed JSON fails the call without caching; a parsed value
is cached; and a holder with a cached value returns that value without
consulting the filesystem again. -/
theorem gui_load_spec (path : List String) (openFile : List String → OpenFileResult)
    (parseJson : List Nat → Option GuiConfig) :
    (openFile path = .notFound →
      (GuiConfigHolder.mk none).load path openFile parseJson
        = ({ cachedValue := some (GuiConfig.defaultValue, path) },
           .ok GuiConfig.defaultValue)) ∧
    (openFile path = .otherIoError →
      (GuiConfigHolder.mk none).load path openFile parseJson
        = (GuiConfigHolder.mk none, .error .ioError)) ∧
    (∀ content, openFile path = .opened content → parseJson content = none →
      (GuiConfigHolder.mk none).load path openFile parseJson
        = (GuiConfigHolder.mk none, .error .jsonError)) ∧
    (∀ content value, openFile path = .opened content → parseJson content = some value →
      (GuiConfigHolder.mk none).load path openFile parseJson
        = ({ cachedValue := some (value, path) }, .ok value)) ∧
    (∀ cached cachedPath path2 openFile2 parseJson2,
      (GuiConfigHolder.mk (some (cached, cachedPath))).load path2 openFile2 parseJson2
        = (GuiConfigHolder.mk (some (cached, cachedPath)), .ok cached)) := by
  refine ⟨?_, ?_, ?_, ?_, ?_⟩
  · intro h
    simp [GuiConfigHolder.load, h]
  · intro h
    simp [GuiConfigHolder.load, h]
  · intro content h hp
    simp [GuiConfigHolder.load, h, hp]
  · intro content value h hp
    simp [GuiConfigHolder.load, h, hp]
  · intro cached cachedPath path2 openFile2 parseJson2
    simp [GuiConfigHolder.load]

theorem gui_load_spec_witness :
    (GuiConfigHolder.mk none).load guiPathW openNotFoundW parseJsonNoneW
      = ({ cachedValue := some (GuiConfig.defaultValue, guiPathW) },
         .ok GuiConfig.defaultValue) :=
  (gui_load_spec guiPathW openNotFoundW parseJsonNoneW).1 rfl

/-! ## The resolution engine: selectors, environment, errors -/

/-- A version selector handed to the package index.  The first two
constructors are the ones built in `unity_project.rs`
(`VersionSelector::specific_version`, `VersionSelector::ranges_for`); the
third is the closure builder's requirement carrying the global prerelease
admissibility flag, modelled from the spec's glossary entry for version
selectors. -/
inductive VersionSelector where
  | specificVersion (version : Version)
  | rangesFor (unity : Option UnityVersion) (ranges : List VersionRange)
  | closureRequirement (unity : Option UnityVersion) (ranges : List VersionRange)
      (allowPrerelease : Bool)
deriving DecidableEq

/-- The environment (package index) as consumed by `resolve`: an oracle
from name and selector to an optional package reference. -/
structure Environment where
  findPackageByName : String → VersionSelector → Option PackageInfo

/-- `AddPackageErr` (add_package module). -/
inductive AddPackageErr where
  | dependencyNotFound (dependencyName : String)
deriving DecidableEq

/-- `ResolvePackageErr` (lines 199-211). -/
inductive ResolvePackageErr where
  | ioError
  | conflictWithDependencies (conflict : String) (dependencyName : String)
  | dependencyNotFound (dependencyName : String)
deriving DecidableEq

/-- `ResolveResult` (lines 247-250). -/
structure ResolveResult where
  installedFromLocked : List PackageInfo
  installedFromUnlockedDependencies : List PackageInfo
deriving DecidableEq

/-- Sequential effectful map over `Except`, returning the first error in
submission order; this models both `try_join_all` (whose surfaced error the
spec fixes as the first-submitted one) and `collect::<Result<Vec<_>,_>>`. -/
def mapME {α β ε : Type} (f : α → Except ε β) : List α → Except ε (List β)
  | [] => .ok []
  | a :: l =>
    match f a with
    | .error e => .error e
    | .ok b =>
      match mapME f l with
      | .error e => .error e
      | .ok bs => .ok (b :: bs)

/-- The shape of a lookup that fails with a named error, shared by both
phases of `resolve`. -/
def lookupExcept {α β ε : Type} (lookup : α → Option β) (err : α → ε) (a : α) :
    Except ε β :=
  match lookup a with
  | none => .error (err a)
  | some b => .ok b

theorem mapME_ok_length {α β ε : Type} (f : α → Except ε β) (l : List α) (bs : List β)
    (h : mapME f l = .ok bs) : bs.length = l.length := by
  induction l generalizing bs with
  | nil => simp [mapME] at h; simp [← h]
  | cons a as ih =>
    rw [mapME] at h
    cases hf : f a with
    | error e => rw [hf] at h; simp at h
    | ok b =>
      rw [hf] at h
      cases hm : mapME f as with
      | error e => rw [hm] at h; simp at h
      | ok cs =>
        rw [hm] at h
        simp only [Except.ok.injEq] at h
        subst h
        simp [ih cs hm]

theorem mapME_ok_mem {α β ε : Type} (f : α → Except ε β) (l : List α) (bs : List β)
    (h : mapME f l = .ok bs) : ∀ a ∈ l, ∃ b, f a = .ok b ∧ b ∈ bs := by
  induction l generalizing bs with
  | nil => simp
  | cons a as ih =>
    rw [mapME] at h
    cases hf : f a with
    | error e => rw [hf] at h; simp at h
    | ok b =>
      rw [hf] at h
      cases hm : mapME f as with
      | error e => rw [hm] at h; simp at h
      | ok cs =>
        rw [hm] at h
        simp only [Except.ok.injEq] at h
        subst h
        intro x hx
        rcases List.mem_cons.mp hx with hx | hx
        · subst hx
          exact ⟨b, hf, List.mem_cons_self _ _⟩
        · rcases ih cs hm x hx with ⟨y, hy1, hy2⟩
          exact ⟨y, hy1, List.mem_cons_of_mem _ hy2⟩

theorem mapME_lookup_error {α β ε : Type} (lookup : α → Option β) (err : α → ε)
    (l : List α) (e : α) (h : l.find? (fun a => (lookup a).isNone) = some e) :
    mapME (lookupExcept lookup err) l = .error (err e) := by
  induction l with
  | nil => simp at h
  | cons a as ih =>
    rw [List.find?_cons] at h
    by_cases ha : (lookup a).isNone = true
    · simp only [ha] at h
      simp only [Option.some.injEq] at h
      subst h
      rw [mapME]
      rw [Option.isNone_iff_eq_none] at ha
      simp [lookupExcept, ha]
    · simp only [Bool.not_eq_true] at ha
      simp only [ha] at h
      have hsome : (lookup a).isSome = true := by
        cases hl : lookup a with
        | none => rw [hl] at ha; simp at ha
        | some b => simp
      rcases Option.isSome_iff_exists.mp hsome with ⟨b, hb⟩
      rw [mapME]
      simp [lookupExcept, hb, ih h]

theorem lookupExcept_ok {α β ε : Type} (lookup : α → Option β) (err : α → ε)
    (a : α) (b : β) (h : lookupExcept lookup err a = .ok b) : lookup a = some b := by
  unfold lookupExcept at h
  cases hl : lookup a with
  | none => rw [hl] at h; simp at h
  | some c => rw [hl] at h; simp at h; simp [h]

/-! ## Phase A of resolve: satisfy the lock (lines 270-283) -/

/-- Phase A of `resolve`: for every locked entry, look the exact version up
in the environment (first failure, in manifest order, surfaces as
`DependencyNotFound` with that entry's name) and install it.  The installer
is the external collaborator of spec section 6 and is idempotent and
side-effect-only, so the model records only the looked-up references. -/
def phaseA (env : Environment) (proj : UnityProject) :
    Except ResolvePackageErr (List PackageInfo) :=
  mapME
    (lookupExcept
      (fun dep => env.findPackageByName dep.name (.specificVersion dep.version))
      (fun dep => ResolvePackageErr.dependencyNotFound dep.name))
    proj.manifest.allLocked

/-! ## Phase B root set (lines 285-311) -/

/-- Names of unlocked packages with a parsed descriptor (lines 285-290). -/
def unlockedNames (proj : UnityProject) : List String :=
  (proj.unlockedPackages.filterMap Prod.snd).map (fun p => p.name)

/-- All dependency declarations of unlocked packages with a valid
descriptor, in iteration order (lines 293-297). -/
def declaredUnlockedDeps (proj : UnityProject) : List (String × VersionRange) :=
  (proj.unlockedPackages.filterMap Prod.snd).flatMap (fun p => p.vpmDependencies)

/-- The declarations that survive the two filters: the dependency name is
not already locked and is not itself an unlocked package (lines 298-299). -/
def candidateUnlockedDeps (proj : UnityProject) : List (String × VersionRange) :=
  (declaredUnlockedDeps proj).filter
    (fun p => (proj.manifest.getLocked p.1).isNone && !((unlockedNames proj).contains p.1))

/-- Insert one requirement into the grouping accumulator: ranges for an
existing name are appended in encounter order, a new name opens a group. -/
def addToGroup : List (String × List VersionRange) → String → VersionRange →
    List (String × List VersionRange)
  | [], n, r => [(n, [r])]
  | (m, rs) :: tail, n, r =>
    if m = n then (m, rs ++ [r]) :: tail else (m, rs) :: addToGroup tail n r

/-- `into_group_map` (line 300): requirements grouped by dependency name.
The Rust side groups into a `HashMap`, whose iteration order is
unspecified; the model determinizes it to first-occurrence order. -/
def groupedRequirements (proj : UnityProject) : List (String × List VersionRange) :=
  (candidateUnlockedDeps proj).foldl (fun acc p => addToGroup acc p.1 p.2) []

/-- Per group, one environment query under the merged ranges constrained by
the editor version; a missing match is `DependencyNotFound` for that
group's name (lines 301-311). -/
def phaseBRoots (env : Environment) (proj : UnityProject) :
    Except ResolvePackageErr (List PackageInfo) :=
  mapME
    (lookupExcept
      (fun g : String × List VersionRange =>
        env.findPackageByName g.1 (.rangesFor proj.unityVersion g.2))
      (fun g => ResolvePackageErr.dependencyNotFound g.1))
    (groupedRequirements proj)

/-- The single global prerelease flag (lines 313-315): set exactly when some
selected root candidate has a non-empty pre-release qualifier. -/
def allowPrerelease (roots : List PackageInfo) : Bool :=
  roots.any (fun p => !(p.version.pre == ""))

/-! ## The package-add request builder (transitive closure) -/

/-- `AddPackageRequest`: the closure's packages to lock and the conflict
table (name to requirers, insertion order). -/
structure AddPackageRequest where
  locked : List PackageInfo
  conflicts : List (String × List String)
deriving DecidableEq

/-- Record one conflict: the requirer is appended to the name's list in
insertion order; a new name opens an entry. -/
def conflictsAdd : List (String × List String) → String → String →
    List (String × List String)
  | [], n, requirer => [(n, [requirer])]
  | (m, rs) :: tail, n, requirer =>
    if m == n then (m, rs ++ [requirer]) :: tail
    else (m, rs) :: conflictsAdd tail n requirer

/-- Working state of the closure walk. -/
structure ClosureState where
  locked : List PackageInfo
  conflicts : List (String × List String)
  queue : List PackageInfo
deriving DecidableEq

def lookupSelected (locked : List PackageInfo) (n : String) : Option PackageInfo :=
  locked.find? (fun p => p.name == n)

/-- Modelled from the spec: processing one dependency declaration of a
closure member.  A name already locked in the manifest, or already chosen
during this walk, is checked against the declared range and a mismatch
records a conflict against the requirer; an unknown name is looked up in
the environment under the global prerelease flag, a missing match being
`DependencyNotFound`. -/
def requireDep (env : Environment) (manifest : VpmManifest) (unity : Option UnityVersion)
    (allowPre : Bool) (requirer : String) (st : ClosureState) (dep : String × VersionRange) :
    Except AddPackageErr ClosureState :=
  match manifest.getLocked dep.1 with
  | some l =>
    if dep.2.matchesVersion l.version then .ok st
    else .ok { st with conflicts := conflictsAdd st.conflicts dep.1 requirer }
  | none =>
    match lookupSelected st.locked dep.1 with
    | some p =>
      if dep.2.matchesVersion p.version then .ok st
      else .ok { st with conflicts := conflictsAdd st.conflicts dep.1 requirer }
    | none =>
      match env.findPackageByName dep.1 (.closureRequirement unity [dep.2] allowPre) with
      | none => .error (.dependencyNotFound dep.1)
      | some p => .ok { st with locked := st.locked ++ [p], queue := st.queue ++ [p] }

/-- Modelled from the spec: process, in declaration order, the dependency
declarations of one closure member. -/
def processDeps (env : Environment) (manifest : VpmManifest) (unity : Option UnityVersion)
    (allowPre : Bool) (requirer : String) :
    List (String × VersionRange) → ClosureState → Except AddPackageErr ClosureState
  | [], st => .ok st
  | dep :: rest, st =>
    match requireDep env manifest unity allowPre requirer st dep with
    | .error e => .error e
    | .ok st2 => processDeps env manifest unity allowPre requirer rest st2

/-- Modelled from the spec: the transitive-closure walk of the package-add
request builder.  Fuel only makes the walk total; it is chosen large enough
for every concrete instance and no claim depends on the bound. -/
def buildClosure (env : Environment) (manifest : VpmManifest) (unity : Option UnityVersion)
    (allowPre : Bool) : Nat → ClosureState → Except AddPackageErr AddPackageRequest
  | 0, st => .ok { locked := st.locked, conflicts := st.conflicts }
  | fuel + 1, st =>
    match st.queue with
    | [] => .ok { locked := st.locked, conflicts := st.conflicts }
    | p :: rest =>
      match processDeps env manifest unity allowPre p.name p.vpmDependencies
          { st with queue := rest } with
      | .error e => .error e
      | .ok st2 => buildClosure env manifest unity allowPre fuel st2

/-- Modelled from the spec: `add_package_request` seeds the walk with the
phase-B root candidates (each already selected, so immediately part of the
closure). -/
def addPackageRequest (env : Environment) (manifest : VpmManifest)
    (unity : Option UnityVersion) (roots : List PackageInfo) (allowPre : Bool) :
    Except AddPackageErr AddPackageRequest :=
  buildClosure env manifest unity allowPre (manifest.locked.length + roots.length + 64)
    { locked := roots, conflicts := [], queue := roots }

/-- Modelled from the spec: `do_add_package_request` installs every closure
package and records each as a locked entry of the manifest. -/
def doAddPackageRequest (proj : UnityProject) (req : AddPackageRequest) : UnityProject :=
  { proj with
    manifest := req.locked.foldl
      (fun m p => m.setLocked p.name p.version p.vpmDependencies) proj.manifest }

/-! ## resolve (lines 263-337) -/

/-- The tail of `resolve` once the phase-B root set is selected: build the
add-package request under the given prerelease flag, abort on the first
conflict (first conflicting name, first recorded requirer) leaving the
project untouched, otherwise commit the request and report both lists. -/
def resolveAfterRoots (env : Environment) (proj : UnityProject)
    (installedFromLocked roots : List PackageInfo) (allowPre : Bool) :
    UnityProject × Except ResolvePackageErr ResolveResult :=
  match addPackageRequest env proj.manifest proj.unityVersion roots allowPre with
  | .error (.dependencyNotFound n) => (proj, .error (.dependencyNotFound n))
  | .ok req =>
    match req.conflicts with
    | (conflict, requirers) :: _ =>
      (proj, .error (.conflictWithDependencies conflict (requirers.headD conflict)))
    | [] =>
      (doAddPackageRequest proj req,
       .ok { installedFromLocked := installedFromLocked
             installedFromUnlockedDependencies := req.locked })

/-- `UnityProject::resolve`: phase A, then the phase-B root selection, then
the closure build and commit.  The project state is threaded explicitly;
every error path returns the project unchanged (the manifest is only
touched by the final commit). -/
def resolve (env : Environment) (proj : UnityProject) :
    UnityProject × Except ResolvePackageErr ResolveResult :=
  match phaseA env proj with
  | .error e => (proj, .error e)
  | .ok installedFromLocked =>
    match phaseBRoots env proj with
    | .error e => (proj, .error e)
    | .ok roots => resolveAfterRoots env proj installedFromLocked roots (allowPrerelease roots)

deriving instance DecidableEq for Except

/-! ## Shared witness fixtures for the resolve theorems -/

def v100 : Version := { major := 1, minor := 0, patch := 0, pre := "" }
def v200 : Version := { major := 2, minor := 0, patch := 0, pre := "" }
def v300 : Version := { major := 3, minor := 0, patch := 0, pre := "" }
def v400 : Version := { major := 4, minor := 0, patch := 0, pre := "" }

/-- The caret range on major 1. -/
def range1 : VersionRange := { lo := v100, hi := v200 }

/-- The caret range on major 3. -/
def range3 : VersionRange := { lo := v300, hi := v400 }

def nameX : String := "x"
def nameQ : String := "q"
def nameU : String := "u"

def lockX : LockedDependencyInfo := { name := nameX, version := v100, dependencies := [] }
def pkgX : PackageInfo := { name := nameX, version := v100, vpmDependencies := [] }
def pkgQ : PackageInfo :=
  { name := nameQ, version := v100, vpmDependencies := [(nameX, range3)] }
def descU : PackageJson :=
  { name := nameU, version := v100, vpmDependencies := [(nameQ, range1)] }

/-- A project locking `x` at 1.0.0 with one unlocked package `u` whose
descriptor requires `q` in the caret-1 range. -/
def projW : UnityProject :=
  { projectDir := []
    manifest := { locked := [lockX] }
    unityVersion := none
    unlockedPackages := [(nameU, some descU)]
    installedPackages := [] }

/-- An index resolving `x` at its exact locked version and `q` to a package
that requires `x` in the caret-3 range (incompatible with the locked 1.0.0,
so the closure walk records a conflict on `x` required by `q`). -/
def envW : Environment :=
  { findPackageByName := fun n sel =>
      if n == nameX && sel == VersionSelector.specificVersion v100 then some pkgX
      else if n == nameQ then some pkgQ
      else none }

def envNoneW : Environment := { findPackageByName := fun _ _ => none }

/-! ## C1: a conflicting closure aborts resolve before any commit -/

/-- C1: if the transitive-closure build returns at least one conflict,
`resolve` aborts with `ConflictWithDependencies` whose `conflict` is the
first conflicting name in the conflict table (insertion order of
requirers) and whose `dependency_name` is that name's first recorded
requirer, and the project (in particular its manifest) is returned
unchanged: no phase-B entry is committed. -/
theorem resolve_conflict_first (env : Environment) (proj : UnityProject)
    (ifl roots : List PackageInfo) (req : AddPackageRequest)
    (c d : String) (ds : List String) (rest : List (String × List String))
    (hA : phaseA env proj = .ok ifl)
    (hB : phaseBRoots env proj = .ok roots)
    (hreq : addPackageRequest env proj.manifest proj.unityVersion roots
        (allowPrerelease roots) = .ok req)
    (hc : req.conflicts = (c, d :: ds) :: rest) :
    resolve env proj = (proj, .error (.conflictWithDependencies c d)) := by
  simp [resolve, hA, hB, resolveAfterRoots, hreq, hc]

theorem resolve_conflict_first_witness :
    resolve envW projW = (projW, .error (.conflictWithDependencies nameX nameQ)) :=
  resolve_conflict_first envW projW [pkgX] [pkgQ]
    { locked := [pkgQ], conflicts := [(nameX, [nameQ])] } nameX nameQ [] []
    (by decide) (by decide) (by decide) (by decide)

/-! ## C2: exact lookup per locked entry, DependencyNotFound on a miss -/

/-- C2: resolve demands, for every locked entry, an environment match under
a selector for exactly that entry's version: when phase A succeeds every
locked entry has such a match, and when some locked entry has none the
call fails with `DependencyNotFound` naming the first such entry (in
manifest order) and returns the project unchanged, so no manifest change
can be persisted by the failed call. -/
theorem resolve_locked_exact_lookup (env : Environment) (proj : UnityProject) :
    (∀ e, proj.manifest.locked.find?
        (fun d => (env.findPackageByName d.name (.specificVersion d.version)).isNone)
          = some e →
      resolve env proj = (proj, .error (.dependencyNotFound e.name))) ∧
    (∀ ifl, phaseA env proj = .ok ifl →
      ∀ d ∈ proj.manifest.locked,
        ∃ p, env.findPackageByName d.name (.specificVersion d.version) = some p) := by
  constructor
  · intro e he
    have herr : phaseA env proj = .error (.dependencyNotFound e.name) :=
      mapME_lookup_error
        (fun dep : LockedDependencyInfo =>
          env.findPackageByName dep.name (.specificVersion dep.version))
        (fun dep => ResolvePackageErr.dependencyNotFound dep.name)
        proj.manifest.locked e he
    simp [resolve, herr]
  · intro ifl hifl d hd
    rcases mapME_ok_mem _ _ _ hifl d hd with ⟨p, hp, _⟩
    exact ⟨p, lookupExcept_ok
      (fun dep : LockedDependencyInfo =>
        env.findPackageByName dep.name (.specificVersion dep.version))
      (fun dep => ResolvePackageErr.dependencyNotFound dep.name) d p hp⟩

theorem resolve_locked_exact_lookup_witness :
    resolve envNoneW projW = (projW, .error (.dependencyNotFound nameX)) :=
  (resolve_locked_exact_lookup envNoneW projW).1 lockX (by decide)

/-! ## C4: one global prerelease flag for the whole remaining resolution -/

/-- C4: the prerelease admissibility for the closure build is one global
boolean: `resolve` equals the remaining pipeline `resolveAfterRoots`
invoked with the single flag that is true exactly when some phase-B root
candidate carries a non-empty pre-release qualifier; that one flag is the
only prerelease input of the whole remaining resolution. -/
theorem resolve_prerelease_global (env : Environment) (proj : UnityProject)
    (ifl roots : List PackageInfo)
    (hA : phaseA env proj = .ok ifl)
    (hB : phaseBRoots env proj = .ok roots) :
    resolve env proj
      = resolveAfterRoots env proj ifl roots
          (decide (∃ p ∈ roots, p.version.pre ≠ "")) ∧
    (allowPrerelease roots = true ↔ ∃ p ∈ roots, p.version.pre ≠ "") := by
  have hiff : allowPrerelease roots = true ↔ ∃ p ∈ roots, p.version.pre ≠ "" := by
    simp [allowPrerelease, List.any_eq_true]
  have hflag : allowPrerelease roots = decide (∃ p ∈ roots, p.version.pre ≠ "") := by
    by_cases h : ∃ p ∈ roots, p.version.pre ≠ ""
    · simp only [h, decide_True]
      exact hiff.mpr h
    · simp only [h, decide_False]
      rw [← Bool.not_eq_true]
      intro hc
      exact h (hiff.mp hc)
  constructor
  · have hres : resolve env proj
        = resolveAfterRoots env proj ifl roots (allowPrerelease roots) := by
      simp [resolve, hA, hB]
    rw [hres, hflag]
  · exact hiff

theorem resolve_prerelease_global_witness :
    resolve envW projW
      = resolveAfterRoots envW projW [pkgX] [pkgQ]
          (decide (∃ p ∈ ([pkgQ] : List PackageInfo), p.version.pre ≠ "")) ∧
    (allowPrerelease [pkgQ] = true ↔ ∃ p ∈ ([pkgQ] : List PackageInfo), p.version.pre ≠ "") :=
  resolve_prerelease_global envW projW [pkgX] [pkgQ] (by decide) (by decide)

/-! ## Grouping lemmas for the phase-B root selection -/

theorem find?_key_isSome {α : Type} (acc : List (String × α)) (n : String) :
    (acc.find? (fun p => p.1 == n)).isSome = true ↔ n ∈ acc.map Prod.fst := by
  rw [List.find?_isSome]
  constructor
  · rintro ⟨x, hx, hpx⟩
    have : x.1 = n := by simpa using hpx
    subst this
    exact List.mem_map_of_mem _ hx
  · intro hn
    rcases List.mem_map.mp hn with ⟨x, hx, hfst⟩
    exact ⟨x, hx, by simp [hfst]⟩

theorem mem_iff_find?_of_nodup {α : Type} [DecidableEq α]
    (acc : List (String × α)) (hnd : (acc.map Prod.fst).Nodup) (n : String) (rs : α) :
    (n, rs) ∈ acc ↔ acc.find? (fun p => p.1 == n) = some (n, rs) := by
  induction acc with
  | nil => simp
  | cons hd tail ih =>
    rcases hd with ⟨k, ks⟩
    simp only [List.map_cons, List.nodup_cons] at hnd
    obtain ⟨hknot, hndt⟩ := hnd
    rw [List.find?_cons]
    by_cases hk : k = n
    · subst hk
      simp only [beq_self_eq_true]
      constructor
      · intro hmem
        rcases List.mem_cons.mp hmem with h | h
        · rw [h]
        · exact absurd (List.mem_map_of_mem Prod.fst h) (by simpa using hknot)
      · intro h
        simp only [Option.some.injEq] at h
        exact List.mem_cons.mpr (Or.inl h.symm)
    · have : (k == n) = false := by simp [hk]
      rw [this]
      constructor
      · intro hmem
        rcases List.mem_cons.mp hmem with h | h
        · exact absurd (congrArg Prod.fst h).symm hk
        · exact (ih hndt).mp h
      · intro h
        exact List.mem_cons.mpr (Or.inr ((ih hndt).mpr h))

theorem addToGroup_find (acc : List (String × List VersionRange)) (n : String)
    (r : VersionRange) (m : String) :
    (addToGroup acc n r).find? (fun p => p.1 == m)
      = if m = n then
          match acc.find? (fun p => p.1 == n) with
          | some pr => some (pr.1, pr.2 ++ [r])
          | none => some (n, [r])
        else acc.find? (fun p => p.1 == m) := by
  induction acc with
  | nil =>
    by_cases hmn : m = n
    · simp [addToGroup, List.find?_cons, hmn]
    · simp [addToGroup, List.find?_cons, hmn, Ne.symm hmn]
  | cons hd tail ih =>
    rcases hd with ⟨k, ks⟩
    rw [addToGroup]
    by_cases hkn : k = n
    · rw [if_pos hkn]
      by_cases hmn : m = n
      · simp [List.find?_cons, hkn, hmn]
      · have hkm : (k == m) = false := by
          rw [hkn]
          simp [Ne.symm hmn]
        simp [List.find?_cons, hkm, hmn]
    · rw [if_neg hkn]
      by_cases hmk : m = k
      · have hmn : ¬ m = n := fun h => hkn (hmk.symm.trans h)
        have hkm : (k == m) = true := by simp [hmk.symm]
        simp [List.find?_cons, hkm, hmn]
      · have hkm : (k == m) = false := by simp [Ne.symm hmk]
        have hknb : (k == n) = false := by simp [hkn]
        simp only [List.find?_cons, hkm, hknb]
        exact ih

theorem addToGroup_keys (acc : List (String × List VersionRange)) (n : String)
    (r : VersionRange) :
    (addToGroup acc n r).map Prod.fst
      = if n ∈ acc.map Prod.fst then acc.map Prod.fst else acc.map Prod.fst ++ [n] := by
  induction acc with
  | nil => simp [addToGroup]
  | cons hd tail ih =>
    rcases hd with ⟨k, ks⟩
    rw [addToGroup]
    by_cases hkn : k = n
    · simp [hkn]
    · rw [if_neg hkn]
      simp only [List.map_cons, ih]
      by_cases hn : n ∈ tail.map Prod.fst
      · simp [hn, Ne.symm hkn]
      · simp [hn, Ne.symm hkn]

theorem addToGroup_keys_nodup (acc : List (String × List VersionRange)) (n : String)
    (r : VersionRange) (h : (acc.map Prod.fst).Nodup) :
    ((addToGroup acc n r).map Prod.fst).Nodup := by
  rw [addToGroup_keys]
  by_cases hn : n ∈ acc.map Prod.fst
  · simpa [hn]
  · rw [if_neg hn, List.nodup_append]
    refine ⟨h, List.nodup_singleton n, ?_⟩
    intro a ha hb
    simp only [List.mem_singleton] at hb
    subst hb
    exact hn ha

theorem foldl_addToGroup_keys_nodup (l : List (String × VersionRange))
    (acc : List (String × List VersionRange)) (h : (acc.map Prod.fst).Nodup) :
    ((l.foldl (fun a p => addToGroup a p.1 p.2) acc).map Prod.fst).Nodup := by
  induction l generalizing acc with
  | nil => simpa using h
  | cons hd tail ih =>
    rw [List.foldl_cons]
    exact ih _ (addToGroup_keys_nodup acc hd.1 hd.2 h)

theorem foldl_addToGroup_find (l : List (String × VersionRange))
    (acc : List (String × List VersionRange)) (m : String) :
    (l.foldl (fun a p => addToGroup a p.1 p.2) acc).find? (fun p => p.1 == m)
      = match acc.find? (fun p => p.1 == m) with
        | some pr => some (pr.1, pr.2 ++ (l.filter (fun p => p.1 == m)).map Prod.snd)
        | none =>
          if m ∈ l.map Prod.fst then
            some (m, (l.filter (fun p => p.1 == m)).map Prod.snd)
          else none := by
  induction l generalizing acc with
  | nil =>
    rw [List.foldl_nil]
    cases hf : acc.find? (fun p => p.1 == m) with
    | none => simp
    | some pr => simp
  | cons hd tail ih =>
    rcases hd with ⟨n, r⟩
    rw [List.foldl_cons, ih, addToGroup_find]
    by_cases hmn : m = n
    · subst hmn
      simp only [if_pos rfl]
      cases hf : acc.find? (fun p => p.1 == m) with
      | none => simp [List.filter_cons, List.mem_map]
      | some pr => simp [List.filter_cons]
    · simp only [if_neg hmn]
      have h1 : ((n, r).1 == m) = false := by simp [Ne.symm hmn]
      cases hf : acc.find? (fun p => p.1 == m) with
      | none =>
        simp only [List.filter_cons, h1, Bool.false_eq_true, if_false]
        have hcond : (m ∈ n :: List.map Prod.fst tail) ↔ m ∈ List.map Prod.fst tail := by
          simp [List.mem_cons, hmn]
        simp only [List.map_cons, hcond]
      | some pr =>
        simp [List.filter_cons, h1]

/-! ## C3: phase-B grouping and per-group query -/

/-- C3: phase B considers exactly the declared ranges of parsed unlocked
descriptors minus names already locked or belonging to another unlocked
package; the surviving requirements are grouped by name, each name
appearing exactly once with all its declared ranges merged in encounter
order into one editor-version-constrained selector; each group is queried
once, a groupless miss failing with `DependencyNotFound` carrying that
group's name, and a success selecting one package per group. -/
theorem phaseB_group_query (env : Environment) (proj : UnityProject) :
    (candidateUnlockedDeps proj = (declaredUnlockedDeps proj).filter
      (fun p => (proj.manifest.getLocked p.1).isNone
        && !((unlockedNames proj).contains p.1))) ∧
    ((groupedRequirements proj).map Prod.fst).Nodup ∧
    (∀ n, n ∈ (groupedRequirements proj).map Prod.fst
        ↔ n ∈ (candidateUnlockedDeps proj).map Prod.fst) ∧
    (∀ n rs, (n, rs) ∈ groupedRequirements proj →
      rs = ((candidateUnlockedDeps proj).filter (fun p => p.1 == n)).map Prod.snd) ∧
    (∀ n rs, (n, rs) ∈ groupedRequirements proj →
      env.findPackageByName n (.rangesFor proj.unityVersion rs) = none →
      ∃ g, g ∈ groupedRequirements proj ∧
        env.findPackageByName g.1 (.rangesFor proj.unityVersion g.2) = none ∧
        phaseBRoots env proj = .error (.dependencyNotFound g.1)) ∧
    (∀ roots, phaseBRoots env proj = .ok roots →
      roots.length = (groupedRequirements proj).length ∧
      ∀ g ∈ groupedRequirements proj,
        ∃ p, env.findPackageByName g.1 (.rangesFor proj.unityVersion g.2) = some p
          ∧ p ∈ roots) := by
  have hnodup : ((groupedRequirements proj).map Prod.fst).Nodup :=
    foldl_addToGroup_keys_nodup (candidateUnlockedDeps proj) [] (by simp)
  have hfind : ∀ n, (groupedRequirements proj).find? (fun p => p.1 == n)
      = if n ∈ (candidateUnlockedDeps proj).map Prod.fst then
          some (n, ((candidateUnlockedDeps proj).filter (fun p => p.1 == n)).map Prod.snd)
        else none := by
    intro n
    have h := foldl_addToGroup_find (candidateUnlockedDeps proj) [] n
    simpa [groupedRequirements] using h
  refine ⟨rfl, hnodup, ?_, ?_, ?_, ?_⟩
  · intro n
    rw [← find?_key_isSome, hfind]
    by_cases hn : n ∈ (candidateUnlockedDeps proj).map Prod.fst
    · simp [hn]
    · simp [hn]
  · intro n rs hmem
    have h := (mem_iff_find?_of_nodup (groupedRequirements proj) hnodup n rs).mp hmem
    rw [hfind] at h
    by_cases hn : n ∈ (candidateUnlockedDeps proj).map Prod.fst
    · rw [if_pos hn] at h
      simp only [Option.some.injEq, Prod.mk.injEq] at h
      exact h.2.symm
    · rw [if_neg hn] at h
      exact absurd h (by simp)
  · intro n rs hmem hnone
    have hex : ∃ x, x ∈ groupedRequirements proj ∧
        ((fun g : String × List VersionRange =>
          (env.findPackageByName g.1 (.rangesFor proj.unityVersion g.2)).isNone) x) = true :=
      ⟨(n, rs), hmem, by simp [hnone]⟩
    have hsome : ((groupedRequirements proj).find?
        (fun g => (env.findPackageByName g.1 (.rangesFor proj.unityVersion g.2)).isNone)).isSome
          = true := by
      rw [List.find?_isSome]
      exact hex
    rcases Option.isSome_iff_exists.mp hsome with ⟨g, hg⟩
    have hgmem := List.mem_of_find?_eq_some hg
    have hgpred := List.find?_some hg
    have hgnone : env.findPackageByName g.1 (.rangesFor proj.unityVersion g.2) = none := by
      simpa [Option.isNone_iff_eq_none] using hgpred
    refine ⟨g, hgmem, hgnone, ?_⟩
    exact mapME_lookup_error
      (fun g : String × List VersionRange =>
        env.findPackageByName g.1 (.rangesFor proj.unityVersion g.2))
      (fun g => ResolvePackageErr.dependencyNotFound g.1)
      (groupedRequirements proj) g hg
  · intro roots hroots
    refine ⟨mapME_ok_length _ _ _ hroots, ?_⟩
    intro g hg
    rcases mapME_ok_mem _ _ _ hroots g hg with ⟨p, hp, hpmem⟩
    exact ⟨p, lookupExcept_ok
      (fun g : String × List VersionRange =>
        env.findPackageByName g.1 (.rangesFor proj.unityVersion g.2))
      (fun g => ResolvePackageErr.dependencyNotFound g.1) g p hp, hpmem⟩

theorem phaseB_group_query_witness :
    ([pkgQ] : List PackageInfo).length = (groupedRequirements projW).length ∧
    ∀ g ∈ groupedRequirements projW,
      ∃ p, envW.findPackageByName g.1 (.rangesFor projW.unityVersion g.2) = some p
        ∧ p ∈ ([pkgQ] : List PackageInfo) :=
  (phaseB_group_query envW projW).2.2.2.2.2 [pkgQ] (by decide)

/-! ## Closure and manifest lemmas for idempotence -/

theorem requireDep_locked_extend (env : Environment) (manifest : VpmManifest)
    (unity : Option UnityVersion) (allowPre : Bool) (requirer : String)
    (st : ClosureState) (dep : String × VersionRange) (st2 : ClosureState)
    (h : requireDep env manifest unity allowPre requirer st dep = .ok st2) :
    ∃ ext, st2.locked = st.locked ++ ext := by
  unfold requireDep at h
  cases hG : manifest.getLocked dep.1 with
  | some l =>
    simp only [hG] at h
    by_cases hm : dep.2.matchesVersion l.version = true
    · rw [if_pos hm] at h
      simp only [Except.ok.injEq] at h
      subst h
      exact ⟨[], by simp⟩
    · rw [if_neg hm] at h
      simp only [Except.ok.injEq] at h
      subst h
      exact ⟨[], by simp⟩
  | none =>
    simp only [hG] at h
    cases hS : lookupSelected st.locked dep.1 with
    | some p =>
      simp only [hS] at h
      by_cases hm : dep.2.matchesVersion p.version = true
      · rw [if_pos hm] at h
        simp only [Except.ok.injEq] at h
        subst h
        exact ⟨[], by simp⟩
      · rw [if_neg hm] at h
        simp only [Except.ok.injEq] at h
        subst h
        exact ⟨[], by simp⟩
    | none =>
      simp only [hS] at h
      cases hE : env.findPackageByName dep.1 (.closureRequirement unity [dep.2] allowPre) with
      | none =>
        simp only [hE] at h
        exact absurd h (by simp)
      | some p =>
        simp only [hE, Except.ok.injEq] at h
        subst h
        exact ⟨[p], rfl⟩

theorem processDeps_locked_extend (env : Environment) (manifest : VpmManifest)
    (unity : Option UnityVersion) (allowPre : Bool) (requirer : String) :
    ∀ (deps : List (String × VersionRange)) (st st2 : ClosureState),
      processDeps env manifest unity allowPre requirer deps st = .ok st2 →
      ∃ ext, st2.locked = st.locked ++ ext := by
  intro deps
  induction deps with
  | nil =>
    intro st st2 h
    simp only [processDeps, Except.ok.injEq] at h
    subst h
    exact ⟨[], by simp⟩
  | cons dep rest ih =>
    intro st st2 h
    rw [processDeps] at h
    cases hr : requireDep env manifest unity allowPre requirer st dep with
    | error e => rw [hr] at h; simp at h
    | ok st1 =>
      rw [hr] at h
      rcases ih st1 st2 h with ⟨ext2, h2⟩
      rcases requireDep_locked_extend env manifest unity allowPre requirer st dep st1 hr
        with ⟨ext1, h1⟩
      exact ⟨ext1 ++ ext2, by rw [h2, h1, List.append_assoc]⟩

theorem buildClosure_locked_extend (env : Environment) (manifest : VpmManifest)
    (unity : Option UnityVersion) (allowPre : Bool) :
    ∀ (fuel : Nat) (st : ClosureState) (req : AddPackageRequest),
      buildClosure env manifest unity allowPre fuel st = .ok req →
      ∃ ext, req.locked = st.locked ++ ext := by
  intro fuel
  induction fuel with
  | zero =>
    intro st req h
    simp only [buildClosure, Except.ok.injEq] at h
    subst h
    exact ⟨[], by simp⟩
  | succ n ih =>
    intro st req h
    obtain ⟨lk, cf, q⟩ := st
    cases q with
    | nil =>
      simp only [buildClosure, Except.ok.injEq] at h
      subst h
      exact ⟨[], by simp⟩
    | cons p rest =>
      simp only [buildClosure] at h
      cases hp : processDeps env manifest unity allowPre p.name p.vpmDependencies
          { locked := lk, conflicts := cf, queue := rest } with
      | error e =>
        simp only [hp] at h
        exact absurd h (by simp)
      | ok st2 =>
        simp only [hp] at h
        rcases ih st2 req h with ⟨ext2, h2⟩
        rcases processDeps_locked_extend env manifest unity allowPre p.name
            p.vpmDependencies { locked := lk, conflicts := cf, queue := rest } st2 hp
          with ⟨ext1, h1⟩
        refine ⟨ext1 ++ ext2, ?_⟩
        rw [h2, h1]
        simp [List.append_assoc]

theorem buildClosure_empty_queue (env : Environment) (manifest : VpmManifest)
    (unity : Option UnityVersion) (allowPre : Bool) (fuel : Nat) (st : ClosureState)
    (h : st.queue = []) :
    buildClosure env manifest unity allowPre fuel st
      = .ok { locked := st.locked, conflicts := st.conflicts } := by
  cases fuel with
  | zero => rw [buildClosure]
  | succ n =>
    rw [buildClosure, h]

theorem addPackageRequest_nil (env : Environment) (m : VpmManifest)
    (unity : Option UnityVersion) (allowPre : Bool) :
    addPackageRequest env m unity [] allowPre = .ok { locked := [], conflicts := [] } := by
  unfold addPackageRequest
  exact buildClosure_empty_queue env m unity allowPre _ _ rfl

theorem getLocked_isSome_iff (m : VpmManifest) (k : String) :
    (m.getLocked k).isSome = true ↔ k ∈ m.lockedNames := by
  unfold VpmManifest.getLocked VpmManifest.lockedNames
  rw [List.find?_isSome]
  constructor
  · rintro ⟨l, hl, hp⟩
    have hk : l.name = k := by simpa using hp
    exact hk ▸ List.mem_map_of_mem _ hl
  · intro hk
    rcases List.mem_map.mp hk with ⟨l, hl, hn⟩
    exact ⟨l, hl, by simp [hn]⟩

theorem lockedNames_setLocked (m : VpmManifest) (n : String) (v : Version)
    (deps : List (String × VersionRange)) :
    (m.setLocked n v deps).lockedNames
      = if (m.getLocked n).isSome then m.lockedNames else m.lockedNames ++ [n] := by
  unfold VpmManifest.setLocked
  by_cases h : (m.getLocked n).isSome = true
  · rw [if_pos h, if_pos h]
    unfold VpmManifest.lockedNames
    simp only [List.map_map]
    apply List.map_congr_left
    intro l _
    by_cases hn : l.name = n
    · simp [Function.comp, hn]
    · simp [Function.comp, hn]
  · rw [if_neg h, if_neg h]
    unfold VpmManifest.lockedNames
    simp

theorem foldl_setLocked_isSome (ps : List PackageInfo) (m : VpmManifest) (n : String) :
    ((ps.foldl (fun acc p => acc.setLocked p.name p.version p.vpmDependencies) m).getLocked
        n).isSome = true
      ↔ (n ∈ ps.map (fun p => p.name) ∨ (m.getLocked n).isSome = true) := by
  induction ps generalizing m with
  | nil => simp
  | cons p ptail ih =>
    rw [List.foldl_cons, ih]
    have hstep : ((m.setLocked p.name p.version p.vpmDependencies).getLocked n).isSome = true
        ↔ (n = p.name ∨ (m.getLocked n).isSome = true) := by
      rw [getLocked_isSome_iff, lockedNames_setLocked]
      by_cases h : (m.getLocked p.name).isSome = true
      · rw [if_pos h]
        constructor
        · intro hmem
          right
          rw [getLocked_isSome_iff]
          exact hmem
        · rintro (rfl | hs)
          · exact (getLocked_isSome_iff _ _).mp h
          · exact (getLocked_isSome_iff _ _).mp hs
      · rw [if_neg h, List.mem_append, List.mem_singleton, getLocked_isSome_iff]
        tauto
    rw [hstep]
    simp only [List.map_cons, List.mem_cons]
    tauto

theorem contains_eq_decide (l : List String) (a : String) :
    l.contains a = decide (a ∈ l) := by
  show l.elem a = decide (a ∈ l)
  exact List.elem_eq_mem a l

/-- Success inversion for `resolve`: a successful call passes phase A, the
root selection, a conflict-free closure build, and commits the request. -/
theorem resolve_ok_inversion (env : Environment) (proj proj2 : UnityProject)
    (r : ResolveResult) (h : resolve env proj = (proj2, .ok r)) :
    ∃ ifl roots req,
      phaseA env proj = .ok ifl ∧
      phaseBRoots env proj = .ok roots ∧
      addPackageRequest env proj.manifest proj.unityVersion roots (allowPrerelease roots)
        = .ok req ∧
      req.conflicts = [] ∧
      proj2 = doAddPackageRequest proj req ∧
      r = { installedFromLocked := ifl, installedFromUnlockedDependencies := req.locked } := by
  unfold resolve at h
  cases hA : phaseA env proj with
  | error e =>
    simp only [hA] at h
    exact absurd h (by simp [Prod.ext_iff])
  | ok ifl =>
    simp only [hA] at h
    cases hB : phaseBRoots env proj with
    | error e =>
      simp only [hB] at h
      exact absurd h (by simp [Prod.ext_iff])
    | ok roots =>
      simp only [hB] at h
      unfold resolveAfterRoots at h
      cases hreq : addPackageRequest env proj.manifest proj.unityVersion roots
          (allowPrerelease roots) with
      | error e =>
        cases e with
        | dependencyNotFound n =>
          simp only [hreq] at h
          exact absurd h (by simp [Prod.ext_iff])
      | ok req =>
        simp only [hreq] at h
        cases hc : req.conflicts with
        | nil =>
          simp only [hc] at h
          simp only [Prod.mk.injEq, Except.ok.injEq] at h
          exact ⟨ifl, roots, req, rfl, rfl, hreq, hc, h.1.symm, h.2.symm⟩
        | cons pr tl =>
          rcases pr with ⟨conflict, requirers⟩
          simp only [hc] at h
          exact absurd h (by simp [Prod.ext_iff])

/-- Name coherence of the package index: a returned package reference is
for the queried name (the spec's index contract "given a name ..., returns
the best-matching available package reference"). -/
def EnvCoherent (env : Environment) : Prop :=
  ∀ n sel p, env.findPackageByName n sel = some p → p.name = n

/-- After a committed phase-B request, no unlocked dependency declaration
survives the filters: every surviving name of the first call was selected
into the closure and is now locked. -/
theorem candidateDeps_after_commit (env : Environment) (proj : UnityProject)
    (roots : List PackageInfo) (req : AddPackageRequest)
    (hcoh : EnvCoherent env)
    (hB : phaseBRoots env proj = .ok roots)
    (hreq : addPackageRequest env proj.manifest proj.unityVersion roots
        (allowPrerelease roots) = .ok req) :
    candidateUnlockedDeps (doAddPackageRequest proj req) = [] := by
  rcases buildClosure_locked_extend env proj.manifest proj.unityVersion
      (allowPrerelease roots) _ _ req hreq with ⟨ext, hext⟩
  rw [candidateUnlockedDeps, List.filter_eq_nil_iff]
  intro a ha hpred
  simp only [Bool.and_eq_true, Bool.not_eq_true'] at hpred
  obtain ⟨hnone1, hnotun⟩ := hpred
  have hdecl : declaredUnlockedDeps (doAddPackageRequest proj req)
      = declaredUnlockedDeps proj := rfl
  have hun : unlockedNames (doAddPackageRequest proj req) = unlockedNames proj := rfl
  rw [hdecl] at ha
  rw [hun, contains_eq_decide] at hnotun
  have hnotmem : a.1 ∉ unlockedNames proj := by simpa using hnotun
  have hman : (doAddPackageRequest proj req).manifest
      = req.locked.foldl
          (fun m p => m.setLocked p.name p.version p.vpmDependencies) proj.manifest := rfl
  rw [Option.isNone_iff_eq_none] at hnone1
  by_cases hPS : (proj.manifest.getLocked a.1).isSome = true
  · have hs : ((doAddPackageRequest proj req).manifest.getLocked a.1).isSome = true := by
      rw [hman, foldl_setLocked_isSome]
      exact Or.inr hPS
    rw [hnone1] at hs
    simp at hs
  · have hPN : (proj.manifest.getLocked a.1).isNone = true := by
      cases hx : proj.manifest.getLocked a.1 with
      | none => simp
      | some l => rw [hx] at hPS; simp at hPS
    have hmemc : a ∈ candidateUnlockedDeps proj := by
      rw [candidateUnlockedDeps, List.mem_filter]
      refine ⟨ha, ?_⟩
      simp [hPN, contains_eq_decide, hnotmem]
    have hkey : a.1 ∈ (candidateUnlockedDeps proj).map Prod.fst :=
      List.mem_map_of_mem _ hmemc
    have hfind := foldl_addToGroup_find (candidateUnlockedDeps proj) [] a.1
    rw [if_pos hkey] at hfind
    simp only [List.find?_nil] at hfind
    have hfind2 : (groupedRequirements proj).find? (fun p => p.1 == a.1)
        = some (a.1,
            ((candidateUnlockedDeps proj).filter (fun p => p.1 == a.1)).map Prod.snd) :=
      hfind
    have hgmem := List.mem_of_find?_eq_some hfind2
    rcases mapME_ok_mem _ _ _ hB _ hgmem with ⟨pkg, hpkg, hpkgroots⟩
    have hlook := lookupExcept_ok
      (fun g : String × List VersionRange =>
        env.findPackageByName g.1 (.rangesFor proj.unityVersion g.2))
      (fun g => ResolvePackageErr.dependencyNotFound g.1) _ pkg hpkg
    have hname : pkg.name = a.1 := hcoh _ _ _ hlook
    have hinreq : pkg ∈ req.locked := by
      rw [hext, List.mem_append]
      exact Or.inl hpkgroots
    have hs : ((doAddPackageRequest proj req).manifest.getLocked a.1).isSome = true := by
      rw [hman, foldl_setLocked_isSome]
      left
      rw [← hname]
      exact List.mem_map_of_mem _ hinreq
    rw [hnone1] at hs
    simp at hs

/-! ## C5: resolve run twice -/

def nameA : String := "a"

def lockA : LockedDependencyInfo := { name := nameA, version := v100, dependencies := [] }

def pkgA : PackageInfo := { name := nameA, version := v100, vpmDependencies := [] }

/-- A project with one locked entry and no unlocked packages. -/
def projC : UnityProject :=
  { projectDir := []
    manifest := { locked := [lockA] }
    unityVersion := none
    unlockedPackages := []
    installedPackages := [] }

/-- An index with exactly the locked package at its exact version. -/
def envC : Environment :=
  { findPackageByName := fun n sel =>
      if n == nameA && sel == VersionSelector.specificVersion v100 then some pkgA
      else none }

theorem envC_coherent : EnvCoherent envC := by
  intro n sel p h
  unfold envC at h
  simp only at h
  by_cases hc : (n == nameA && sel == VersionSelector.specificVersion v100) = true
  · rw [if_pos hc] at h
    simp only [Option.some.injEq] at h
    subst h
    have hn : n = nameA := by
      have := (Bool.and_eq_true _ _).mp hc
      simpa using this.1
    rw [hn]
    rfl
  · rw [if_neg hc] at h
    exact absurd h (by simp)

/-- C5 counterexample: both calls succeed with identical state, yet the
second call's `installed_from_locked` lists the locked package again, so
its result lists are not both empty as the claim states. -/
theorem resolve_idem_counterexample :
    (resolve envC projC).2
      = .ok { installedFromLocked := [pkgA], installedFromUnlockedDependencies := [] } ∧
    (resolve envC (resolve envC projC).1).2
      = .ok { installedFromLocked := [pkgA], installedFromUnlockedDependencies := [] } ∧
    ([pkgA] : List PackageInfo) ≠ [] :=
  ⟨by decide, by decide, by decide⟩

/-- C5 (amended): for a name-coherent environment, if `resolve` succeeds and
is called again with project and environment unchanged, the second call
adds nothing: its `installed_from_unlocked_dependencies` list is empty and
the project state (manifest included) is unchanged; but
`installed_from_locked` is not empty in general — it lists one package per
locked manifest entry, exactly as on the first call. -/
theorem resolve_second_call (env : Environment) (proj proj1 proj2 : UnityProject)
    (r1 r2 : ResolveResult)
    (hcoh : EnvCoherent env)
    (h1 : resolve env proj = (proj1, .ok r1))
    (h2 : resolve env proj1 = (proj2, .ok r2)) :
    r2.installedFromUnlockedDependencies = [] ∧ proj2 = proj1 ∧
    r2.installedFromLocked.length = proj1.manifest.locked.length := by
  rcases resolve_ok_inversion env proj proj1 r1 h1 with
    ⟨ifl1, roots1, req1, hA1, hB1, hreq1, hc1, hp1, hr1⟩
  have hcand : candidateUnlockedDeps proj1 = [] := by
    rw [hp1]
    exact candidateDeps_after_commit env proj roots1 req1 hcoh hB1 hreq1
  have hgroups : groupedRequirements proj1 = [] := by
    rw [groupedRequirements, hcand]
    rfl
  have hBroots1 : phaseBRoots env proj1 = .ok [] := by
    rw [phaseBRoots, hgroups]
    rfl
  rcases resolve_ok_inversion env proj1 proj2 r2 h2 with
    ⟨ifl2, roots2, req2, hA2, hB2, hreq2, hc2, hp2, hr2⟩
  rw [hBroots1] at hB2
  have hroots2 : roots2 = [] := by
    simp only [Except.ok.injEq] at hB2
    exact hB2.symm
  subst hroots2
  rw [addPackageRequest_nil] at hreq2
  have hreq2eq : req2 = { locked := [], conflicts := [] } := by
    simp only [Except.ok.injEq] at hreq2
    exact hreq2.symm
  subst hreq2eq
  have hproj2 : proj2 = proj1 := by
    rw [hp2]
    rfl
  refine ⟨?_, hproj2, ?_⟩
  · rw [hr2]
  · rw [hr2]
    exact mapME_ok_length _ _ _ hA2

theorem resolve_second_call_witness :
    ({ installedFromLocked := [pkgA], installedFromUnlockedDependencies := [] }
        : ResolveResult).installedFromUnlockedDependencies = [] ∧
    projC = projC ∧
    ({ installedFromLocked := [pkgA], installedFromUnlockedDependencies := [] }
        : ResolveResult).installedFromLocked.length = projC.manifest.locked.length :=
  resolve_second_call envC projC projC projC
    { installedFromLocked := [pkgA], installedFromUnlockedDependencies := [] }
    { installedFromLocked := [pkgA], installedFromUnlockedDependencies := [] }
    envC_coherent (by decide) (by decide)

/-! ## Mark-and-sweep (lines 342-357) -/

/-- The root set of the sweep: every dependency name declared by an
unlocked package with a parsed descriptor (spec section 4.1). -/
def sweepRoots (unlocked : List (String × Option PackageJson)) : List String :=
  (unlocked.filterMap Prod.snd).flatMap (fun p => p.vpmDependencies.map Prod.fst)

def depNamesOf (l : LockedDependencyInfo) : List String :=
  l.dependencies.map Prod.fst

/-- One marking round: add the dependency names of every locked entry whose
own name is already marked. -/
def markStep (manifest : VpmManifest) (marked : List String) : List String :=
  marked ++
    (((manifest.locked.filter (fun l => marked.contains l.name)).flatMap depNamesOf).filter
      (fun d => !marked.contains d))

def sweepGo (manifest : VpmManifest) : Nat → List String → List String
  | 0, marked => marked
  | n + 1, marked => sweepGo manifest n (markStep manifest marked)

/-- The marked (reachable) names: iterating one round more often than there
are locked entries reaches a fixpoint. -/
def markedNames (manifest : VpmManifest) (roots : List String) : List String :=
  sweepGo manifest (manifest.locked.length + 1) roots

/-- Modelled from the spec: `mark_and_sweep_packages` of the manifest model
removes the locked rows unreachable from the sweep roots and returns their
names. -/
def VpmManifest.markAndSweepPackages (m : VpmManifest)
    (unlocked : List (String × Option PackageJson)) : VpmManifest × List String :=
  let marked := markedNames m (sweepRoots unlocked)
  ({ locked := m.locked.filter (fun l => marked.contains l.name) },
   (m.locked.filter (fun l => !marked.contains l.name)).map (fun l => l.name))

inductive FsError where
  | notFound
deriving DecidableEq

/-- `remove_dir_all` on the disk model (the set of directory names under
the package folder): deleting an absent directory is a NotFound error. -/
def removeDirAllModel (disk : List String) (name : String) : Except FsError (List String) :=
  if disk.contains name then .ok (disk.filter (fun d => !(d == name)))
  else .error .notFound

/-- Lines 348-352: a NotFound deletion error is converted to success. -/
def removeDirIgnoreMissing (disk : List String) (name : String) : List String :=
  match removeDirAllModel disk name with
  | .ok disk2 => disk2
  | .error .notFound => disk

/-- `UnityProject::mark_and_sweep` (lines 342-357): compute the removed
names, delete each one's directory ignoring NotFound, return the removed
set; the deletions are independent per name, so the concurrent
`try_join_all` is modelled by a fold. -/
def markAndSweep (proj : UnityProject) (disk : List String) :
    (UnityProject × List String) × List String :=
  let pr := proj.manifest.markAndSweepPackages proj.unlockedPackages
  (({ proj with manifest := pr.1 }, pr.2), pr.2.foldl removeDirIgnoreMissing disk)

/-- Declarative reachability over the dependency graph: roots, plus the
dependency names of any reachable locked entry. -/
inductive ReachableName (manifest : VpmManifest) (roots : List String) : String → Prop where
  | root (n : String) : n ∈ roots → ReachableName manifest roots n
  | step (l : LockedDependencyInfo) (d : String) :
      ReachableName manifest roots l.name → l ∈ manifest.locked →
      d ∈ depNamesOf l → ReachableName manifest roots d

/-! ## Marking lemmas -/

theorem mem_markStep (manifest : VpmManifest) (marked : List String) (x : String) :
    x ∈ markStep manifest marked ↔
      x ∈ marked ∨ ∃ l ∈ manifest.locked, l.name ∈ marked ∧ x ∈ depNamesOf l := by
  unfold markStep
  rw [List.mem_append, List.mem_filter]
  constructor
  · rintro (hx | ⟨hx, _⟩)
    · exact Or.inl hx
    · rcases List.mem_flatMap.mp hx with ⟨l, hl, hd⟩
      rcases List.mem_filter.mp hl with ⟨hlm, hc⟩
      rw [contains_eq_decide] at hc
      exact Or.inr ⟨l, hlm, by simpa using hc, hd⟩
  · rintro (hx | ⟨l, hlm, hname, hd⟩)
    · exact Or.inl hx
    · by_cases hxm : x ∈ marked
      · exact Or.inl hxm
      · refine Or.inr ⟨?_, ?_⟩
        · exact List.mem_flatMap.mpr ⟨l, List.mem_filter.mpr
            ⟨hlm, by rw [contains_eq_decide]; simpa using hname⟩, hd⟩
        · rw [contains_eq_decide]
          simpa using hxm

theorem mem_markStep_of_mem (manifest : VpmManifest) (marked : List String) (x : String)
    (h : x ∈ marked) : x ∈ markStep manifest marked :=
  (mem_markStep manifest marked x).mpr (Or.inl h)

theorem mem_sweepGo_of_mem (manifest : VpmManifest) :
    ∀ (n : Nat) (marked : List String) (x : String),
      x ∈ marked → x ∈ sweepGo manifest n marked := by
  intro n
  induction n with
  | zero => intro marked x h; exact h
  | succ k ih =>
    intro marked x h
    exact ih (markStep manifest marked) x (mem_markStep_of_mem manifest marked x h)

theorem sweepGo_sound (manifest : VpmManifest) (roots : List String) :
    ∀ (n : Nat) (marked : List String),
      (∀ x ∈ marked, ReachableName manifest roots x) →
      ∀ x ∈ sweepGo manifest n marked, ReachableName manifest roots x := by
  intro n
  induction n with
  | zero => intro marked h x hx; exact h x hx
  | succ k ih =>
    intro marked h x hx
    refine ih (markStep manifest marked) ?_ x hx
    intro y hy
    rcases (mem_markStep manifest marked y).mp hy with hy | ⟨l, hlm, hname, hd⟩
    · exact h y hy
    · exact ReachableName.step l y (h l.name hname) hlm hd

/-- Membership in all marking constructs depends only on membership of the
input, so set-equal inputs give set-equal outputs. -/
def sameMembers (a b : List String) : Prop := ∀ x, x ∈ a ↔ x ∈ b

theorem markStep_congr (manifest : VpmManifest) (m1 m2 : List String)
    (h : sameMembers m1 m2) : sameMembers (markStep manifest m1) (markStep manifest m2) := by
  intro x
  rw [mem_markStep, mem_markStep]
  constructor
  · rintro (hx | ⟨l, hlm, hname, hd⟩)
    · exact Or.inl ((h x).mp hx)
    · exact Or.inr ⟨l, hlm, (h l.name).mp hname, hd⟩
  · rintro (hx | ⟨l, hlm, hname, hd⟩)
    · exact Or.inl ((h x).mpr hx)
    · exact Or.inr ⟨l, hlm, (h l.name).mpr hname, hd⟩

theorem sweepGo_congr (manifest : VpmManifest) :
    ∀ (n : Nat) (m1 m2 : List String), sameMembers m1 m2 →
      sameMembers (sweepGo manifest n m1) (sweepGo manifest n m2) := by
  intro n
  induction n with
  | zero => intro m1 m2 h; exact h
  | succ k ih =>
    intro m1 m2 h
    exact ih _ _ (markStep_congr manifest m1 m2 h)

theorem sweepGo_of_fixpoint (manifest : VpmManifest) :
    ∀ (n : Nat) (marked : List String),
      sameMembers (markStep manifest marked) marked →
      sameMembers (sweepGo manifest n marked) marked := by
  intro n
  induction n with
  | zero => intro marked _ x; exact Iff.rfl
  | succ k ih =>
    intro marked h
    intro x
    have h1 := sweepGo_congr manifest k (markStep manifest marked) marked h x
    have h2 := ih marked h x
    exact h1.trans h2

/-! ## Fixpoint of the marking iteration -/

def lockedNamesFinset (manifest : VpmManifest) : Finset String :=
  manifest.lockedNames.toFinset

def lockedMarked (manifest : VpmManifest) (marked : List String) : Finset String :=
  (lockedNamesFinset manifest).filter (fun n => n ∈ marked)

theorem mem_lockedMarked (manifest : VpmManifest) (marked : List String) (x : String) :
    x ∈ lockedMarked manifest marked ↔ x ∈ manifest.lockedNames ∧ x ∈ marked := by
  simp [lockedMarked, lockedNamesFinset, Finset.mem_filter, List.mem_toFinset]

theorem lockedMarked_mono (manifest : VpmManifest) (marked : List String) :
    lockedMarked manifest marked ⊆ lockedMarked manifest (markStep manifest marked) := by
  intro x hx
  rw [mem_lockedMarked] at hx ⊢
  exact ⟨hx.1, mem_markStep_of_mem _ _ _ hx.2⟩

/-- If one marking round adds no new locked name, the next round adds
nothing at all. -/
theorem markStep_stable (manifest : VpmManifest) (marked : List String)
    (h : lockedMarked manifest (markStep manifest marked) = lockedMarked manifest marked) :
    sameMembers (markStep manifest (markStep manifest marked)) (markStep manifest marked) := by
  intro x
  rw [mem_markStep]
  constructor
  · rintro (hx | ⟨l, hlm, hname, hd⟩)
    · exact hx
    · have hln : l.name ∈ manifest.lockedNames := List.mem_map_of_mem _ hlm
      have h1 : l.name ∈ lockedMarked manifest (markStep manifest marked) := by
        rw [mem_lockedMarked]
        exact ⟨hln, hname⟩
      rw [h, mem_lockedMarked] at h1
      exact (mem_markStep manifest marked x).mpr (Or.inr ⟨l, hlm, h1.2, hd⟩)
  · intro hx
    exact Or.inl hx

/-- With more fuel than there are locked names left unmarked, the iteration
result is a fixpoint of the marking round. -/
theorem sweepGo_fixpoint (manifest : VpmManifest) :
    ∀ (n : Nat) (marked : List String),
      ((lockedNamesFinset manifest) \ lockedMarked manifest marked).card < n →
      sameMembers (markStep manifest (sweepGo manifest n marked))
        (sweepGo manifest n marked) := by
  intro n
  induction n with
  | zero => intro marked h; exact absurd h (Nat.not_lt_zero _)
  | succ k ih =>
    intro marked hcard
    by_cases hL : lockedMarked manifest (markStep manifest marked)
        = lockedMarked manifest marked
    · have hfix := markStep_stable manifest marked hL
      have hout : sameMembers (sweepGo manifest k (markStep manifest marked))
          (markStep manifest marked) := sweepGo_of_fixpoint manifest k _ hfix
      intro x
      have hcong := markStep_congr manifest _ _ hout x
      exact (hcong.trans (hfix x)).trans (hout x).symm
    · have hsub := lockedMarked_mono manifest marked
      have hss : lockedMarked manifest marked < lockedMarked manifest (markStep manifest marked) :=
        lt_of_le_of_ne hsub (fun he => hL he.symm)
      have hlt : ((lockedNamesFinset manifest)
            \ lockedMarked manifest (markStep manifest marked)).card
          < ((lockedNamesFinset manifest) \ lockedMarked manifest marked).card := by
        have hb1 : lockedMarked manifest marked ⊆ lockedNamesFinset manifest :=
          Finset.filter_subset _ _
        have hb2 : lockedMarked manifest (markStep manifest marked)
            ⊆ lockedNamesFinset manifest := Finset.filter_subset _ _
        rw [Finset.card_sdiff hb1, Finset.card_sdiff hb2]
        have h1 := Finset.card_lt_card hss
        have h2 := Finset.card_le_card hb2
        omega
      exact ih (markStep manifest marked) (by omega)

theorem marked_sound (manifest : VpmManifest) (roots : List String) (x : String)
    (h : x ∈ markedNames manifest roots) : ReachableName manifest roots x :=
  sweepGo_sound manifest roots _ roots (fun y hy => ReachableName.root y hy) x h

theorem marked_complete (manifest : VpmManifest) (roots : List String) (x : String)
    (h : ReachableName manifest roots x) : x ∈ markedNames manifest roots := by
  have hcardbound : ((lockedNamesFinset manifest) \ lockedMarked manifest roots).card
      < manifest.locked.length + 1 := by
    have h1 : ((lockedNamesFinset manifest) \ lockedMarked manifest roots).card
        ≤ (lockedNamesFinset manifest).card :=
      Finset.card_le_card Finset.sdiff_subset
    have h2 : (lockedNamesFinset manifest).card ≤ manifest.lockedNames.length :=
      List.toFinset_card_le _
    have h3 : manifest.lockedNames.length = manifest.locked.length := by
      simp [VpmManifest.lockedNames]
    omega
  have hfix := sweepGo_fixpoint manifest (manifest.locked.length + 1) roots hcardbound
  induction h with
  | root n hn => exact mem_sweepGo_of_mem manifest _ roots n hn
  | step l d hr hlm hd ih =>
    have hname : l.name ∈ markedNames manifest roots := ih
    have hstep : d ∈ markStep manifest (markedNames manifest roots) :=
      (mem_markStep _ _ d).mpr (Or.inr ⟨l, hlm, hname, hd⟩)
    exact (hfix d).mp hstep

/-! ## Disk deletion lemmas -/

theorem mem_removeDirIgnoreMissing (disk : List String) (n d : String) :
    d ∈ removeDirIgnoreMissing disk n ↔ (d ∈ disk ∧ d ≠ n) := by
  by_cases hc : disk.contains n = true
  · have heq : removeDirIgnoreMissing disk n = disk.filter (fun d => !(d == n)) := by
      unfold removeDirIgnoreMissing removeDirAllModel
      rw [if_pos hc]
    rw [heq, List.mem_filter]
    simp
  · have hnn : n ∉ disk := by
      rw [contains_eq_decide] at hc
      simpa using hc
    have heq : removeDirIgnoreMissing disk n = disk := by
      unfold removeDirIgnoreMissing removeDirAllModel
      rw [if_neg hc]
    rw [heq]
    constructor
    · intro hd
      exact ⟨hd, fun he => hnn (he ▸ hd)⟩
    · exact fun h => h.1

theorem removeDir_missing_noop (dk : List String) (n : String) (h : n ∉ dk) :
    removeDirIgnoreMissing dk n = dk := by
  have hc : dk.contains n = false := by
    rw [contains_eq_decide]
    simpa using h
  unfold removeDirIgnoreMissing removeDirAllModel
  rw [hc]
  simp

theorem mem_foldl_removeDir (names : List String) :
    ∀ (disk : List String) (d : String),
      d ∈ names.foldl removeDirIgnoreMissing disk ↔ (d ∈ disk ∧ d ∉ names) := by
  induction names with
  | nil => intro disk d; simp
  | cons n rest ih =>
    intro disk d
    rw [List.foldl_cons, ih, mem_removeDirIgnoreMissing]
    constructor
    · rintro ⟨⟨h1, h2⟩, h3⟩
      exact ⟨h1, by simp [h2, h3]⟩
    · intro h
      obtain ⟨h1, h2⟩ := h
      simp only [List.mem_cons, not_or] at h2
      exact ⟨⟨h1, h2.1⟩, h2.2⟩

/-! ## C6: mark_and_sweep -/

/-- C6: `mark_and_sweep` removes exactly the locked names unreachable from
the dependency graph rooted at the unlocked packages' declared
dependencies, keeps exactly the reachable locked rows, deletes from disk
exactly the removed names (directories not removed are untouched, so
unlocked directories are never deleted), returns the removed set, and
treats deleting an already-missing directory as success. -/
theorem mark_and_sweep_spec (proj : UnityProject) (disk : List String) :
    (∀ n, n ∈ (markAndSweep proj disk).1.2 ↔
      ((∃ l ∈ proj.manifest.locked, l.name = n) ∧
        ¬ ReachableName proj.manifest (sweepRoots proj.unlockedPackages) n)) ∧
    (∀ l, l ∈ (markAndSweep proj disk).1.1.manifest.locked ↔
      (l ∈ proj.manifest.locked ∧
        ReachableName proj.manifest (sweepRoots proj.unlockedPackages) l.name)) ∧
    (∀ d, d ∈ (markAndSweep proj disk).2 ↔
      (d ∈ disk ∧ d ∉ (markAndSweep proj disk).1.2)) ∧
    (∀ n ∈ (markAndSweep proj disk).1.2,
      ∀ l ∈ (markAndSweep proj disk).1.1.manifest.locked, l.name ≠ n) ∧
    (∀ dk n, n ∉ dk → removeDirIgnoreMissing dk n = dk) := by
  have hrem : (markAndSweep proj disk).1.2
      = (proj.manifest.locked.filter
          (fun l => !(markedNames proj.manifest
            (sweepRoots proj.unlockedPackages)).contains l.name)).map
          (fun l => l.name) := rfl
  have hkept : (markAndSweep proj disk).1.1.manifest.locked
      = proj.manifest.locked.filter
          (fun l => (markedNames proj.manifest
            (sweepRoots proj.unlockedPackages)).contains l.name) := rfl
  have hdisk : (markAndSweep proj disk).2
      = ((markAndSweep proj disk).1.2).foldl removeDirIgnoreMissing disk := rfl
  refine ⟨?_, ?_, ?_, ?_, fun dk n h => removeDir_missing_noop dk n h⟩
  · intro n
    rw [hrem, List.mem_map]
    constructor
    · rintro ⟨l, hlf, hname⟩
      rcases List.mem_filter.mp hlf with ⟨hlm, hcb⟩
      have hnm : l.name ∉ markedNames proj.manifest (sweepRoots proj.unlockedPackages) := by
        rw [Bool.not_eq_true', contains_eq_decide] at hcb
        simpa using hcb
      refine ⟨⟨l, hlm, hname⟩, ?_⟩
      intro hre
      apply hnm
      rw [hname]
      exact marked_complete _ _ _ hre
    · rintro ⟨⟨l, hlm, hname⟩, hnr⟩
      refine ⟨l, List.mem_filter.mpr ⟨hlm, ?_⟩, hname⟩
      have hnm : l.name ∉ markedNames proj.manifest (sweepRoots proj.unlockedPackages) := by
        intro hmem
        apply hnr
        rw [← hname]
        exact marked_sound _ _ _ hmem
      rw [Bool.not_eq_true', contains_eq_decide]
      simpa using hnm
  · intro l
    rw [hkept, List.mem_filter]
    constructor
    · rintro ⟨hlm, hcb⟩
      refine ⟨hlm, marked_sound _ _ _ ?_⟩
      rw [contains_eq_decide] at hcb
      simpa using hcb
    · rintro ⟨hlm, hre⟩
      refine ⟨hlm, ?_⟩
      rw [contains_eq_decide]
      simpa using marked_complete _ _ _ hre
  · intro d
    rw [hdisk, mem_foldl_removeDir]
  · intro n hn l hl hne
    rw [hkept, List.mem_filter] at hl
    have hmem : l.name ∈ markedNames proj.manifest (sweepRoots proj.unlockedPackages) := by
      rw [contains_eq_decide] at hl
      simpa using hl.2
    rw [hrem, List.mem_map] at hn
    rcases hn with ⟨l2, hl2f, hl2name⟩
    rcases List.mem_filter.mp hl2f with ⟨_, hcb⟩
    have hnm : l2.name ∉ markedNames proj.manifest (sweepRoots proj.unlockedPackages) := by
      rw [Bool.not_eq_true', contains_eq_decide] at hcb
      simpa using hcb
    apply hnm
    rw [hl2name, ← hne]
    exact hmem

theorem mark_and_sweep_spec_witness :
    (∃ l ∈ projC.manifest.locked, l.name = nameA) ∧
    ¬ ReachableName projC.manifest (sweepRoots projC.unlockedPackages) nameA :=
  ((mark_and_sweep_spec projC ([nameA])).1 nameA).mp (by decide)
